import Mathlib

/-!
Verification development for the todo command-line task list manager
(src/lib.rs, src/main.rs).  The Rust code is shallowly embedded: strings
are lists of characters, chrono NaiveDate is a year-month-day record with
an explicit validity predicate, fallible operations (which in the source
print an error and call process::exit) return Except, and the dispatcher
parse_command is modelled as a function from the argument vector and the
initial file content to the observable outcome (did the process take an
error exit, and with which task list was save invoked).
-/

namespace Todo

/-! ### Characters and low-level string utilities -/

/-- Model of Rust char::is_whitespace: the Unicode White_Space property, as
used by str::trim, str::trim_start, str::trim_end and chrono's numeric-field
trimming.  The code points are U+0009 through U+000D and U+0020 (the ASCII
whitespace), U+0085 (next line), U+00A0 (no-break space), U+1680 (ogham
space mark), U+2000 through U+200A (typographic spaces), U+2028 (line
separator), U+2029 (paragraph separator), U+202F (narrow no-break space),
U+205F (medium mathematical space) and U+3000 (ideographic space). -/
def rustWS (c : Char) : Bool :=
  decide ((9 ≤ c.toNat ∧ c.toNat ≤ 13) ∨ c.toNat = 32 ∨ c.toNat = 133 ∨
    c.toNat = 160 ∨ c.toNat = 5760 ∨ (8192 ≤ c.toNat ∧ c.toNat ≤ 8202) ∨
    c.toNat = 8232 ∨ c.toNat = 8233 ∨ c.toNat = 8239 ∨ c.toNat = 8287 ∨
    c.toNat = 12288)

/-- Model of u8::is_ascii_digit, used by chrono scan::number and by
usize::from_str_radix with radix 10. -/
def isDig (c : Char) : Bool := 48 ≤ c.toNat && c.toNat ≤ 57

/-- Numeric value of an ASCII digit character. -/
def charVal (c : Char) : Nat := c.toNat - 48

/-- ASCII digit character for a value below ten. -/
def digitChar : Nat → Char
  | 0 => '0' | 1 => '1' | 2 => '2' | 3 => '3' | 4 => '4'
  | 5 => '5' | 6 => '6' | 7 => '7' | 8 => '8' | _ => '9'

/-- Convenience coercion from string literals to character lists. -/
def strL (s : String) : List Char := s.data

/-- Model of str::trim_start. -/
def trimLeft (l : List Char) : List Char := l.dropWhile rustWS

/-- Model of str::trim_end. -/
def trimRight (l : List Char) : List Char := (l.reverse.dropWhile rustWS).reverse

/-- Model of str::trim. -/
def trim (l : List Char) : List Char := trimLeft (trimRight l)

/-- Splitting on every line feed, keeping a (possibly empty) final segment,
like Rust str::split used as a building block for str::lines. -/
def splitNewline : List Char → List (List Char)
  | [] => [[]]
  | c :: cs =>
    if c = '\n' then [] :: splitNewline cs
    else
      match splitNewline cs with
      | [] => [[c]]
      | l :: ls => (c :: l) :: ls

/-- Dropping one trailing carriage return, as Rust str::lines does on each line. -/
def stripCR (l : List Char) : List Char :=
  if l.getLast? = some '\r' then l.dropLast else l

/-- Model of Rust str::lines: split on line feeds, a trailing final newline
produces no extra empty line, and each line loses one trailing carriage return. -/
def rustLines (cs : List Char) : List (List Char) :=
  (if (splitNewline cs).getLast? = some [] then (splitNewline cs).dropLast
   else splitNewline cs).map stripCR

/-- Model of str::split_once with the comma pattern: split at the first comma. -/
def splitOnceComma : List Char → Option (List Char × List Char)
  | [] => none
  | c :: cs =>
    if c = ',' then some ([], cs)
    else (splitOnceComma cs).map (fun p => (c :: p.1, p.2))

/-- Date text and name of a line, per load: split at the first comma, and when
no comma is present the whole line is the name and the date text is empty. -/
def splitDateName (l : List Char) : List Char × List Char :=
  (splitOnceComma l).getD ([], l)

/-! ### Decimal numerals -/

/-- Decimal digits of a number, most significant first, with explicit fuel so
that the definition is structurally recursive (empty for zero, as in the
zero-padded contexts where it is used). -/
def natToCharsAux : Nat → Nat → List Char
  | 0, _ => []
  | _ + 1, 0 => []
  | fuel + 1, n + 1 =>
    natToCharsAux fuel ((n + 1) / 10) ++ [digitChar ((n + 1) % 10)]

/-- Decimal digit characters of a number, most significant first. -/
def natToChars (n : Nat) : List Char := natToCharsAux n n

/-- Decimal rendering of a number as Rust Display prints it (zero is "0"). -/
def natRepr (n : Nat) : List Char := if n = 0 then ['0'] else natToChars n

/-- Numeric value of a digit string, most significant digit first. -/
def parseNum (cs : List Char) : Nat :=
  cs.foldl (fun a c => 10 * a + charVal c) 0

/-- Greedy scan of at most max leading ASCII digit characters. -/
def takeDigits : Nat → List Char → List Char × List Char
  | 0, cs => ([], cs)
  | _ + 1, [] => ([], [])
  | k + 1, c :: cs =>
    if isDig c then
      let p := takeDigits k cs
      (c :: p.1, p.2)
    else ([], c :: cs)

/-- Model of chrono scan::number: consume at most maxD leading digits, fail
when fewer than minD are present, return the value and the rest. -/
def scanNum (minD maxD : Nat) (cs : List Char) : Option (Nat × List Char) :=
  let p := takeDigits maxD cs
  if p.1.length < minD then none else some (parseNum p.1, p.2)

/-- Zero padding on the left to the given width, as the {:0width} formatter. -/
def padZero (k : Nat) (cs : List Char) : List Char :=
  List.replicate (k - cs.length) '0' ++ cs

/-! ### Calendar dates (model of chrono NaiveDate) -/

/-- Model of a chrono NaiveDate as a raw year-month-day record; the values a
NaiveDate can actually hold are characterised by the valid predicate below. -/
structure Date where
  year : Int
  month : Nat
  day : Nat
deriving DecidableEq

/-- Model of chrono NaiveDate::MAX (December 31 of year 262143). -/
def dateMax : Date := ⟨262143, 12, 31⟩

/-- Proleptic Gregorian leap year rule, as chrono implements it. -/
def isLeap (y : Int) : Bool :=
  decide ((y % 4 = 0 ∧ y % 100 ≠ 0) ∨ y % 400 = 0)

/-- Number of days of a month in a given year, zero for an invalid month. -/
def daysInMonth (y : Int) (m : Nat) : Nat :=
  match m with
  | 1 => 31 | 2 => if isLeap y then 29 else 28 | 3 => 31
  | 4 => 30 | 5 => 31 | 6 => 30 | 7 => 31 | 8 => 31
  | 9 => 30 | 10 => 31 | 11 => 30 | 12 => 31
  | _ => 0

/-- Validity of a year-month-day triple, following chrono
NaiveDate::from_ymd_opt including the year range of NaiveDate. -/
def dateValidB (y : Int) (m d : Nat) : Bool :=
  decide (-262144 ≤ y ∧ y ≤ 262143 ∧ 1 ≤ m ∧ m ≤ 12 ∧ 1 ≤ d ∧
    d ≤ daysInMonth y m)

/-- Validity of a Date record: exactly the triples a NaiveDate can hold. -/
def Date.valid (dt : Date) : Bool := dateValidB dt.year dt.month dt.day

/-- Three-way comparison on Int without library compare instances. -/
def cmpInt (a b : Int) : Ordering :=
  if a < b then .lt else if a = b then .eq else .gt

/-- Three-way comparison on Nat without library compare instances. -/
def cmpNat (a b : Nat) : Ordering :=
  if a < b then .lt else if a = b then .eq else .gt

/-- Model of Ord for NaiveDate: lexicographic on (year, month, day), which
agrees with chrono's (year, ordinal) comparison on valid dates. -/
def dateCmp (a b : Date) : Ordering :=
  (cmpInt a.year b.year).then ((cmpNat a.month b.month).then (cmpNat a.day b.day))

/-- Model of the derived less-or-equal on NaiveDate. -/
def dateLe (a b : Date) : Bool :=
  match dateCmp a b with
  | .gt => false
  | _ => true

/-- Model of the derived strictly-less on NaiveDate. -/
def dateLt (a b : Date) : Bool :=
  match dateCmp a b with
  | .lt => true
  | _ => false

/-! ### Date formatting and parsing with the %Y-%m-%d format -/

/-- Model of chrono formatting of %Y: years from 0 through 9999 are
zero-padded to four digits, other years carry an explicit sign and are
zero-padded to width five counting the sign. -/
def formatYear (y : Int) : List Char :=
  if 0 ≤ y ∧ y < 10000 then padZero 4 (natToChars y.toNat)
  else if y < 0 then '-' :: padZero 4 (natToChars (-y).toNat)
  else '+' :: natToChars y.toNat

/-- Model of NaiveDate formatted with %Y-%m-%d, as save and print use it. -/
def formatDate (dt : Date) : List Char :=
  formatYear dt.year ++ '-' :: (padZero 2 (natToChars dt.month) ++
    '-' :: padZero 2 (natToChars dt.day))

/-- Model of chrono parsing of the %Y item: optional leading whitespace is
skipped, an explicit sign admits any number of digits, otherwise at most
four digits are read. -/
def parseYear (cs : List Char) : Option (Int × List Char) :=
  if (trimLeft cs).head? = some '-' then
    (scanNum 1 (trimLeft cs).tail.length (trimLeft cs).tail).map
      (fun p => (-(p.1 : Int), p.2))
  else if (trimLeft cs).head? = some '+' then
    (scanNum 1 (trimLeft cs).tail.length (trimLeft cs).tail).map
      (fun p => ((p.1 : Int), p.2))
  else (scanNum 1 4 (trimLeft cs)).map (fun p => ((p.1 : Int), p.2))

/-- Literal dash of the %Y-%m-%d format string. -/
def expectDash : List Char → Option (List Char)
  | c :: rest => if c = '-' then some rest else none
  | [] => none

/-- Model of chrono parsing of a two-digit numeric item (%m or %d). -/
def parseField2 (cs : List Char) : Option (Nat × List Char) :=
  scanNum 1 2 (trimLeft cs)

/-- Resolution step of chrono Parsed::to_naive_date via from_ymd_opt. -/
def mkDate (y : Int) (m d : Nat) : Option Date :=
  if dateValidB y m d then some ⟨y, m, d⟩ else none

/-- Model of NaiveDate::parse_from_str with format %Y-%m-%d: the three
numeric fields separated by literal dashes, the whole input consumed. -/
def parseDate (cs : List Char) : Option Date :=
  (parseYear cs).bind (fun py =>
    (expectDash py.2).bind (fun r2 =>
      (parseField2 r2).bind (fun pm =>
        (expectDash pm.2).bind (fun r4 =>
          (parseField2 r4).bind (fun pd =>
            if pd.2 = [] then mkDate py.1 pm.1 pd.1 else none)))))

/-- Due date obtained from date text: nonexistent or invalid dates are
interpreted as the max date (load and parse_add, unwrap_or_else). -/
def dateOfText (cs : List Char) : Date := (parseDate cs).getD dateMax

/-! ### Tasks and the todo list (model of Task and TodoList) -/

/-- Model of the Task struct; the name is the raw character list. -/
structure Task where
  name : List Char
  due_date : Date
  order : Nat
deriving DecidableEq

/-- Model of the Ord implementation for Task: by due date, then by order. -/
def taskCmp (a b : Task) : Ordering :=
  (dateCmp a.due_date b.due_date).then (cmpNat a.order b.order)

/-- Model of the PartialEq implementation for Task: equality of due date and
order; the name does not participate. -/
def taskEqB (a b : Task) : Bool :=
  decide (a.due_date = b.due_date ∧ a.order = b.order)

/-- Sorting relation induced by the Ord implementation for Task. -/
def taskRel (a b : Task) : Prop := taskCmp a b ≠ Ordering.gt

instance : DecidableRel taskRel := fun a b => by
  unfold taskRel; infer_instance

/-- Order values are exactly one through the length, in sequence position. -/
def orderInv (ts : List Task) : Prop :=
  ∀ (i : Nat) (h : i < ts.length), (ts.get ⟨i, h⟩).order = i + 1

/-- Recursive worker of update_order, numbering tasks from a given start. -/
def updateOrderFrom : Nat → List Task → List Task
  | _, [] => []
  | k, t :: ts => { t with order := k } :: updateOrderFrom (k + 1) ts

/-- Model of TodoList::update_order: renumber all tasks from one by position. -/
def update_order (ts : List Task) : List Task := updateOrderFrom 1 ts

/-- Model of TodoList::add: push a task with order equal to the new length. -/
def add (ts : List Task) (name : List Char) (due : Date) : List Task :=
  ts ++ [⟨name, due, ts.length + 1⟩]

/-- Error message of TodoList::remove for an out-of-bounds index. -/
def removeRangeMsg (n : Nat) : List Char :=
  strL "Error position must be between 1 and " ++ natRepr n

/-- Error message of TodoList::reorder for an out-of-bounds index. -/
def reorderRangeMsg (n : Nat) : List Char :=
  strL "Error positions must be between 1 and " ++ natRepr n

/-- Model of TodoList::remove on a zero-based index: an out-of-bounds index
reports the valid range and exits (error); otherwise the task is removed and
the order fields recomputed. -/
def removeTask (ts : List Task) (index : Nat) : Except (List Char) (List Task) :=
  if index ≥ ts.length then .error (removeRangeMsg ts.length)
  else .ok (update_order (ts.eraseIdx index))

/-- Model of TodoList::reorder on zero-based indices: bounds are checked
against the original length, then the task is removed at the source index
and inserted at the target index of the shortened list, and the order
fields recomputed. -/
def reorderTask (ts : List Task) (i j : Nat) : Except (List Char) (List Task) :=
  if h : i < ts.length ∧ j < ts.length then
    .ok (update_order ((ts.eraseIdx i).insertIdx j (ts.get ⟨i, h.1⟩)))
  else .error (reorderRangeMsg ts.length)

/-- Overdue test of print_tasks: the due date compares at or before today. -/
def isOverdue (t : Task) (today : Date) : Bool := dateLe t.due_date today

/-- Date column of print_tasks: empty for the sentinel maximum date. -/
def displayDate (t : Task) : List Char :=
  if t.due_date = dateMax then [] else formatDate t.due_date

/-- Model of print_by_due_date's Vec::sort: a stable sort by the Task Ord
relation (insertion sort is extensionally equal to any stable sort). -/
def sortTasks (ts : List Task) : List Task := List.insertionSort taskRel ts

/-! ### Persistence (model of load and save) -/

/-- Recursive worker of load, carrying the next order value. -/
def loadLoop : Nat → List (List Char) → List Task
  | _, [] => []
  | k, line :: rest =>
    if trim line = [] then loadLoop k rest
    else ⟨(splitDateName (trim line)).2, dateOfText (splitDateName (trim line)).1, k⟩ ::
      loadLoop (k + 1) rest

/-- Model of TodoList::load applied to the text content of the file: trim
each line, skip blank lines, split at the first comma into date text and
name, and assign order by position among the non-blank lines. -/
def load (content : List Char) : List Task := loadLoop 1 (rustLines content)

/-- Model of TodoList::load including the missing-file case: read_to_string
unwrap_or_default yields the empty string when the file does not exist. -/
def loadFile (content : Option (List Char)) : List Task :=
  load (content.getD [])

/-- Line that save writes for one task: the due date formatted with
%Y-%m-%d, a comma, the name. -/
def saveLine (t : Task) : List Char := formatDate t.due_date ++ ',' :: t.name

/-- Model of TodoList::save: the file content written, one line per task
each terminated by a newline. -/
def saveContent (ts : List Task) : List Char :=
  ts.foldr (fun t acc => saveLine t ++ '\n' :: acc) []

/-! ### Command dispatch (model of parse_command and helpers) -/

/-- Model of usize::from_str_radix with radix 10: an optional plus sign,
then at least one digit, no other characters, no 64-bit overflow. -/
def parseUsize (cs : List Char) : Option Nat :=
  let ds := match cs with
    | '+' :: r => r
    | _ => cs
  if ds = [] then none
  else if ds.all isDig then
    if parseNum ds < 2 ^ 64 then some (parseNum ds) else none
  else none

/-- Model of parse_add: the name argument is required, the optional date
argument defaults to the empty string and is parsed with the sentinel
fallback. -/
def parse_add (args : List (List Char)) (ts : List Task) :
    Except (List Char) (List Task) :=
  match args with
  | [] => .error (strL "Error no task provided to add command")
  | name :: rest => .ok (add ts name (dateOfText ((rest.head?).getD [])))

/-- Model of parse_remove: a required numeric position, rejected below one,
then handed zero-based to removeTask. -/
def parse_remove (args : List (List Char)) (ts : List Task) :
    Except (List Char) (List Task) :=
  match args with
  | [] => .error (strL "Error no position provided to remove command")
  | p :: _ =>
    match parseUsize p with
    | none => .error (strL "Error invalid position provided to remove command")
    | some n =>
      if n < 1 then .error (strL "Error position cannot be < 1")
      else removeTask ts (n - 1)

/-- Model of parse_move: two required numeric positions, rejected below one,
then handed zero-based to reorderTask. -/
def parse_move (args : List (List Char)) (ts : List Task) :
    Except (List Char) (List Task) :=
  match args with
  | [] => .error (strL "Error no from position provided to move command")
  | pf :: rest =>
    match parseUsize pf with
    | none => .error (strL "Error invalid from position provided to move command")
    | some nf =>
      match rest with
      | [] => .error (strL "Error no to position provided to move command")
      | pt :: _ =>
        match parseUsize pt with
        | none => .error (strL "Error invalid to position provided to move command")
        | some nt =>
          if nf < 1 ∨ nt < 1 then .error (strL "Error positions cannot be < 1")
          else reorderTask ts (nf - 1) (nt - 1)

/-- Observable outcome of one program run: whether the process took an
error exit, and the task list save was invoked with, if any. -/
structure DispatchResult where
  exited : Bool
  saved : Option (List Task)
deriving DecidableEq

/-- Outcome of a mutating branch: an error inside the branch means the
process exits before the save point, success reaches the save call. -/
def mutate (res : Except (List Char) (List Task)) : DispatchResult :=
  match res with
  | .error _ => ⟨true, none⟩
  | .ok l => ⟨false, some l⟩

/-- Command selected by parse_command from the arguments after the program
name: the first one, defaulting to list. -/
def commandOf (rest : List (List Char)) : List Char :=
  (rest.head?).getD (strL "list")

/-- Model of parse_command: load the list from the file content, dispatch on
the command (the first argument after the program name, defaulting to
list), and save exactly when a mutating command succeeded. -/
def parse_command (argv : List (List Char)) (content : List Char) :
    DispatchResult :=
  if commandOf (argv.drop 1) = strL "list" then ⟨false, none⟩
  else if commandOf (argv.drop 1) = strL "date" then ⟨false, none⟩
  else if commandOf (argv.drop 1) = strL "add" then
    mutate (parse_add ((argv.drop 1).drop 1) (load content))
  else if commandOf (argv.drop 1) = strL "remove" then
    mutate (parse_remove ((argv.drop 1).drop 1) (load content))
  else if commandOf (argv.drop 1) = strL "move" then
    mutate (parse_move ((argv.drop 1).drop 1) (load content))
  else if commandOf (argv.drop 1) = strL "help" ∨
    commandOf (argv.drop 1) = strL "--help" ∨
    commandOf (argv.drop 1) = strL "-h" then ⟨false, none⟩
  else ⟨true, none⟩

/-- Commands whose branch in parse_command sets is_modified. -/
def mutatingCommands : List (List Char) := [strL "add", strL "remove", strL "move"]

/-- Iterated add starting from the empty list, for the repeated-add property. -/
def addAll (ops : List (List Char × Date)) : List Task :=
  ops.foldl (fun l p => add l p.1 p.2) []

deriving instance DecidableEq for Except

/-- Reading of the claim that an error message identifies the valid 1-based
range of positions: both endpoints of the range occur in the message. -/
def specIdentifiesRange (n : Nat) (msg : List Char) : Prop :=
  (natRepr 1).IsInfix msg ∧ (natRepr n).IsInfix msg

/-! ### Lemmas: decimal numerals -/

theorem isDig_digitChar : ∀ d : Nat, isDig (digitChar d) = true
  | 0 => rfl | 1 => rfl | 2 => rfl | 3 => rfl | 4 => rfl
  | 5 => rfl | 6 => rfl | 7 => rfl | 8 => rfl | _ + 9 => rfl

theorem charVal_digitChar : ∀ d : Nat, d < 10 → charVal (digitChar d) = d := by
  decide

theorem isDig_toNat {c : Char} (h : isDig c = true) :
    48 ≤ c.toNat ∧ c.toNat ≤ 57 := by
  simpa [isDig] using h

theorem isDig_not_ws {c : Char} (h : isDig c = true) : rustWS c = false := by
  obtain ⟨h1, h2⟩ := isDig_toNat h
  simp only [rustWS, decide_eq_false_iff_not]
  omega

theorem isDig_ne {c : Char} (h : isDig c = true) :
    c ≠ ',' ∧ c ≠ '-' ∧ c ≠ '+' ∧ c ≠ '\n' ∧ c ≠ '\r' := by
  refine ⟨?_, ?_, ?_, ?_, ?_⟩ <;> (rintro rfl; exact absurd h (by decide))

theorem natToCharsAux_digits (n : Nat) : ∀ fuel, n ≤ fuel →
    ∀ c ∈ natToCharsAux fuel n, isDig c = true := by
  induction n using Nat.strong_induction_on with
  | _ n ih =>
    intro fuel hf c hc
    match n, fuel with
    | 0, 0 => simp [natToCharsAux] at hc
    | 0, f + 1 => simp [natToCharsAux] at hc
    | n + 1, f + 1 =>
      rw [natToCharsAux] at hc
      rcases List.mem_append.mp hc with h | h
      · have hd : (n + 1) / 10 < n + 1 := Nat.div_lt_self (by omega) (by omega)
        exact ih ((n + 1) / 10) hd f (by omega) c h
      · rcases List.mem_singleton.mp h with rfl
        exact isDig_digitChar _

theorem natToChars_digits (n : Nat) : ∀ c ∈ natToChars n, isDig c = true :=
  natToCharsAux_digits n n (Nat.le_refl n)

theorem parseNum_append_digit (xs : List Char) (c : Char) :
    parseNum (xs ++ [c]) = 10 * parseNum xs + charVal c := by
  simp [parseNum, List.foldl_append]

theorem parseNum_natToCharsAux (n : Nat) : ∀ fuel, n ≤ fuel →
    parseNum (natToCharsAux fuel n) = n := by
  induction n using Nat.strong_induction_on with
  | _ n ih =>
    intro fuel hf
    match n, fuel with
    | 0, 0 => rfl
    | 0, f + 1 => rfl
    | n + 1, f + 1 =>
      rw [natToCharsAux, parseNum_append_digit]
      have hd : (n + 1) / 10 < n + 1 := Nat.div_lt_self (by omega) (by omega)
      rw [ih ((n + 1) / 10) hd f (by omega)]
      rw [charVal_digitChar ((n + 1) % 10) (Nat.mod_lt _ (by omega))]
      omega

theorem parseNum_natToChars (n : Nat) : parseNum (natToChars n) = n :=
  parseNum_natToCharsAux n n (Nat.le_refl n)

theorem natToCharsAux_length (n : Nat) : ∀ fuel k, n ≤ fuel → n < 10 ^ k →
    (natToCharsAux fuel n).length ≤ k := by
  induction n using Nat.strong_induction_on with
  | _ n ih =>
    intro fuel k hf hk
    match n, fuel with
    | 0, 0 => simp [natToCharsAux]
    | 0, f + 1 => simp [natToCharsAux]
    | n + 1, f + 1 =>
      rw [natToCharsAux]
      have hkpos : 1 ≤ k := by
        by_contra hc
        interval_cases k
        omega
      have hd : (n + 1) / 10 < n + 1 := Nat.div_lt_self (by omega) (by omega)
      have hdiv : (n + 1) / 10 < 10 ^ (k - 1) := by
        rw [Nat.div_lt_iff_lt_mul (by omega)]
        calc n + 1 < 10 ^ k := hk
        _ = 10 ^ (k - 1) * 10 := by
            rw [← Nat.pow_succ]
            congr 1
            omega
      have := ih ((n + 1) / 10) hd f (k - 1) (by omega) hdiv
      simp only [List.length_append, List.length_singleton]
      omega

theorem natToChars_length {n k : Nat} (hk : n < 10 ^ k) :
    (natToChars n).length ≤ k :=
  natToCharsAux_length n n k (Nat.le_refl n) hk

theorem natToChars_ne_nil {n : Nat} (hn : n ≠ 0) : natToChars n ≠ [] := by
  match n with
  | m + 1 =>
    unfold natToChars natToCharsAux
    simp

theorem parseNum_replicate_zero (j : Nat) (cs : List Char) :
    parseNum (List.replicate j '0' ++ cs) = parseNum cs := by
  induction j with
  | zero => rfl
  | succ j ih =>
    rw [List.replicate_succ, List.cons_append]
    show parseNum ('0' :: (List.replicate j '0' ++ cs)) = parseNum cs
    simpa [parseNum, charVal] using ih

theorem parseNum_padZero (k : Nat) (cs : List Char) :
    parseNum (padZero k cs) = parseNum cs :=
  parseNum_replicate_zero _ cs

theorem padZero_digits {k : Nat} {cs : List Char}
    (h : ∀ c ∈ cs, isDig c = true) : ∀ c ∈ padZero k cs, isDig c = true := by
  intro c hc
  rcases List.mem_append.mp hc with hc | hc
  · rcases List.eq_of_mem_replicate hc with rfl
    rfl
  · exact h c hc

theorem padZero_length (k : Nat) (cs : List Char) :
    (padZero k cs).length = max k cs.length := by
  simp [padZero]
  omega

theorem padZero_ne_nil (k : Nat) (hk : 0 < k) (cs : List Char) :
    padZero k cs ≠ [] := by
  intro h
  have := congrArg List.length h
  rw [padZero_length] at this
  simp at this
  omega

/-! ### Lemmas: digit scanning -/

theorem takeDigits_append_full : ∀ (l r : List Char),
    (∀ c ∈ l, isDig c = true) → takeDigits l.length (l ++ r) = (l, r) := by
  intro l
  induction l with
  | nil => intro r _; rfl
  | cons c cs ih =>
    intro r h
    have hc : isDig c = true := h c (List.mem_cons_self c cs)
    rw [List.length_cons, List.cons_append, takeDigits]
    rw [if_pos hc, ih r (fun x hx => h x (List.mem_cons_of_mem c hx))]

theorem takeDigits_append_stop : ∀ (k : Nat) (l r : List Char),
    (∀ c ∈ l, isDig c = true) → l.length ≤ k →
    (∀ c, r.head? = some c → isDig c = false) →
    takeDigits k (l ++ r) = (l, r) := by
  intro k l
  induction l generalizing k with
  | nil =>
    intro r _ _ hr
    match k, r with
    | 0, r => rfl
    | k + 1, [] => rfl
    | k + 1, c :: r =>
      rw [List.nil_append, takeDigits, if_neg]
      simp [hr c rfl]
  | cons c cs ih =>
    intro r h hk hr
    match k with
    | k + 1 =>
      have hc : isDig c = true := h c (List.mem_cons_self c cs)
      rw [List.cons_append, takeDigits, if_pos hc,
        ih k r (fun x hx => h x (List.mem_cons_of_mem c hx))
          (by simpa using hk) hr]

theorem scanNum_append_full {l r : List Char} (hd : ∀ c ∈ l, isDig c = true)
    (hne : l ≠ []) : scanNum 1 l.length (l ++ r) = some (parseNum l, r) := by
  rw [scanNum, takeDigits_append_full l r hd]
  have h1 : 1 ≤ l.length := List.length_pos.mpr hne
  have h2 : ¬l.length < 1 := by omega
  simp only [if_neg h2]

theorem scanNum_append_stop {k : Nat} {l r : List Char}
    (hd : ∀ c ∈ l, isDig c = true) (hne : l ≠ []) (hk : l.length ≤ k)
    (hr : ∀ c, r.head? = some c → isDig c = false) :
    scanNum 1 k (l ++ r) = some (parseNum l, r) := by
  rw [scanNum, takeDigits_append_stop k l r hd hk hr]
  have h1 : 1 ≤ l.length := List.length_pos.mpr hne
  have h2 : ¬l.length < 1 := by omega
  simp only [if_neg h2]

/-! ### Lemmas: trimming, line splitting, comma splitting -/

theorem trimLeft_cons_of_not_ws {c : Char} (h : rustWS c = false)
    (l : List Char) : trimLeft (c :: l) = c :: l := by
  simp [trimLeft, List.dropWhile_cons, h]

theorem trimRight_eq_self {l : List Char}
    (h : ∀ c, l.getLast? = some c → rustWS c = false) : trimRight l = l := by
  unfold trimRight
  match hrev : l.reverse with
  | [] =>
    have : l = [] := by simpa using congrArg List.reverse hrev
    simp [this]
  | c :: cs =>
    have hd : l.getLast? = some c := by
      rw [← List.head?_reverse l, hrev]; rfl
    rw [List.dropWhile_cons, h c hd]
    rw [if_neg (by simp), ← hrev, List.reverse_reverse]

theorem trim_eq_self {l : List Char}
    (hh : ∀ c, l.head? = some c → rustWS c = false)
    (hl : ∀ c, l.getLast? = some c → rustWS c = false) : trim l = l := by
  unfold trim
  rw [trimRight_eq_self hl]
  match l with
  | [] => rfl
  | c :: cs => exact trimLeft_cons_of_not_ws (hh c rfl) cs

theorem splitNewline_append {l : List Char} (rest : List Char)
    (h : '\n' ∉ l) : splitNewline (l ++ '\n' :: rest) = l :: splitNewline rest := by
  induction l with
  | nil => simp [splitNewline]
  | cons c cs ih =>
    have hc : ¬(c = '\n') := fun hc => h (hc ▸ List.mem_cons_self c cs)
    rw [List.cons_append, splitNewline,
      ih (fun hm => h (List.mem_cons_of_mem c hm)), if_neg hc]

theorem stripCR_eq_self {l : List Char} (h : '\r' ∉ l) : stripCR l = l := by
  unfold stripCR
  split_ifs with hl
  · exfalso
    apply h
    have hm : '\r' ∈ l.getLast? := by rw [hl]; rfl
    obtain ⟨hne, heq⟩ := List.mem_getLast?_eq_getLast hm
    rw [heq]
    exact List.getLast_mem hne
  · rfl

theorem splitOnceComma_append {l : List Char} (r : List Char) (h : ',' ∉ l) :
    splitOnceComma (l ++ ',' :: r) = some (l, r) := by
  induction l with
  | nil => simp [splitOnceComma]
  | cons c cs ih =>
    have hc : ¬(c = ',') := fun hc => h (hc ▸ List.mem_cons_self c cs)
    rw [List.cons_append, splitOnceComma, if_neg hc,
      ih (fun hm => h (List.mem_cons_of_mem c hm))]
    rfl

theorem splitOnceComma_of_no_comma {l : List Char} (h : ',' ∉ l) :
    splitOnceComma l = none := by
  induction l with
  | nil => rfl
  | cons c cs ih =>
    have hc : ¬(c = ',') := fun hc => h (hc ▸ List.mem_cons_self c cs)
    rw [splitOnceComma, if_neg hc,
      ih (fun hm => h (List.mem_cons_of_mem c hm))]
    rfl

theorem splitDateName_append {l : List Char} (r : List Char) (h : ',' ∉ l) :
    splitDateName (l ++ ',' :: r) = (l, r) := by
  rw [splitDateName, splitOnceComma_append r h]
  rfl

theorem splitDateName_of_no_comma {l : List Char} (h : ',' ∉ l) :
    splitDateName l = ([], l) := by
  rw [splitDateName, splitOnceComma_of_no_comma h]
  rfl

/-! ### Lemmas: characters appearing in a formatted date -/

theorem natToChars_all_digits (n : Nat) : ∀ c ∈ natToChars n, isDig c = true :=
  natToChars_digits n

theorem formatYear_chars (y : Int) :
    ∀ c ∈ formatYear y, isDig c = true ∨ c = '-' ∨ c = '+' := by
  intro c hc
  unfold formatYear at hc
  split_ifs at hc with h1 h2
  · exact Or.inl (padZero_digits (natToChars_all_digits _) c hc)
  · rcases List.mem_cons.mp hc with rfl | hc
    · exact Or.inr (Or.inl rfl)
    · exact Or.inl (padZero_digits (natToChars_all_digits _) c hc)
  · rcases List.mem_cons.mp hc with rfl | hc
    · exact Or.inr (Or.inr rfl)
    · exact Or.inl (natToChars_all_digits _ c hc)

theorem formatDate_chars (dt : Date) :
    ∀ c ∈ formatDate dt, isDig c = true ∨ c = '-' ∨ c = '+' := by
  intro c hc
  unfold formatDate at hc
  rcases List.mem_append.mp hc with hc | hc
  · exact formatYear_chars _ c hc
  · rcases List.mem_cons.mp hc with rfl | hc
    · exact Or.inr (Or.inl rfl)
    · rcases List.mem_append.mp hc with hc | hc
      · exact Or.inl (padZero_digits (natToChars_all_digits _) c hc)
      · rcases List.mem_cons.mp hc with rfl | hc
        · exact Or.inr (Or.inl rfl)
        · exact Or.inl (padZero_digits (natToChars_all_digits _) c hc)

theorem formatDate_char_facts {dt : Date} {c : Char} (hc : c ∈ formatDate dt) :
    c ≠ '\n' ∧ c ≠ '\r' ∧ c ≠ ',' ∧ rustWS c = false := by
  rcases formatDate_chars dt c hc with h | h | h
  · obtain ⟨h1, _, _, h4, h5⟩ := isDig_ne h
    exact ⟨h4, h5, h1, isDig_not_ws h⟩
  · subst h; exact ⟨by decide, by decide, by decide, by decide⟩
  · subst h; exact ⟨by decide, by decide, by decide, by decide⟩

theorem formatDate_ne_nil (dt : Date) : formatDate dt ≠ [] := by
  simp [formatDate]

theorem comma_not_mem_formatDate (dt : Date) : ',' ∉ formatDate dt := by
  intro hc
  exact (formatDate_char_facts hc).2.2.1 rfl

/-! ### Lemmas: parsing a formatted date recovers the date -/

theorem dash_not_dig : ∀ c, ('-' :: (tail : List Char)).head? = some c →
    isDig c = false := by
  rintro c ⟨rfl⟩
  decide

theorem parseYear_format (y : Int) (rest : List Char) :
    parseYear (formatYear y ++ '-' :: rest) = some (y, '-' :: rest) := by
  unfold formatYear
  split_ifs with h1 h2
  · -- years 0 through 9999, zero-padded to exactly four digits
    have hlen : (padZero 4 (natToChars y.toNat)).length = 4 := by
      have h4 : y.toNat < 10 ^ 4 := by
        rw [show (10 : Nat) ^ 4 = 10000 from rfl]
        omega
      have := natToChars_length h4
      rw [padZero_length]
      omega
    obtain ⟨c, t, hct⟩ :=
      List.exists_cons_of_ne_nil (padZero_ne_nil 4 (by omega) (natToChars y.toNat))
    have hdigs : ∀ x ∈ padZero 4 (natToChars y.toNat), isDig x = true :=
      padZero_digits (natToChars_all_digits _)
    have hc : isDig c = true := hdigs c (by rw [hct]; exact List.mem_cons_self c t)
    have hcm : c ≠ '-' ∧ c ≠ '+' := ⟨(isDig_ne hc).2.1, (isDig_ne hc).2.2.1⟩
    rw [parseYear, hct, List.cons_append,
      trimLeft_cons_of_not_ws (isDig_not_ws hc), List.head?_cons]
    rw [if_neg (fun hx => hcm.1 (Option.some.inj hx)),
      if_neg (fun hx => hcm.2 (Option.some.inj hx)),
      ← List.cons_append, ← hct]
    rw [scanNum_append_stop hdigs (by rw [hct]; simp) (by omega) (dash_not_dig)]
    rw [parseNum_padZero, parseNum_natToChars]
    rw [Option.map_some']
    congr 2
    omega
  · -- negative years: a minus sign, then at least four digits
    rw [parseYear, List.cons_append, trimLeft_cons_of_not_ws (by decide),
      List.head?_cons]
    rw [if_pos rfl, List.tail_cons]
    rw [scanNum_append_stop (padZero_digits (natToChars_all_digits _))
      (padZero_ne_nil 4 (by omega) _) (by simp) (dash_not_dig)]
    rw [parseNum_padZero, parseNum_natToChars]
    rw [Option.map_some']
    congr 2
    omega
  · -- years 10000 and above: a plus sign, then the digits
    have hne : natToChars y.toNat ≠ [] := natToChars_ne_nil (by omega)
    rw [parseYear, List.cons_append, trimLeft_cons_of_not_ws (by decide),
      List.head?_cons]
    rw [if_neg (fun hx => absurd (Option.some.inj hx) (by decide)),
      if_pos rfl, List.tail_cons]
    rw [scanNum_append_stop (natToChars_all_digits _) hne (by simp)
      (dash_not_dig)]
    rw [parseNum_natToChars]
    rw [Option.map_some']
    congr 2
    omega

theorem parseField2_format {m : Nat} (hm : m < 100) (r : List Char)
    (hr : ∀ c, r.head? = some c → isDig c = false) :
    parseField2 (padZero 2 (natToChars m) ++ r) = some (m, r) := by
  have hlen : (padZero 2 (natToChars m)).length = 2 := by
    have h2 : m < 10 ^ 2 := by
      rw [show (10 : Nat) ^ 2 = 100 from rfl]
      omega
    have := natToChars_length h2
    rw [padZero_length]
    omega
  obtain ⟨c, t, hct⟩ :=
    List.exists_cons_of_ne_nil (padZero_ne_nil 2 (by omega) (natToChars m))
  have hdigs : ∀ x ∈ padZero 2 (natToChars m), isDig x = true :=
    padZero_digits (natToChars_all_digits _)
  have hc : isDig c = true := hdigs c (by rw [hct]; exact List.mem_cons_self c t)
  rw [parseField2, hct, List.cons_append,
    trimLeft_cons_of_not_ws (isDig_not_ws hc), ← List.cons_append, ← hct]
  rw [scanNum_append_stop hdigs (by rw [hct]; simp) (by omega) hr]
  rw [parseNum_padZero, parseNum_natToChars]

theorem daysInMonth_le (y : Int) (m : Nat) : daysInMonth y m ≤ 31 := by
  unfold daysInMonth
  split <;> first | omega | (split_ifs <;> omega)

theorem mkDate_valid {dt : Date} (h : dt.valid = true) :
    mkDate dt.year dt.month dt.day = some dt := by
  rw [mkDate, if_pos (show dateValidB dt.year dt.month dt.day = true from h)]

theorem parseDate_formatDate {dt : Date} (h : dt.valid = true) :
    parseDate (formatDate dt) = some dt := by
  have hv : -262144 ≤ dt.year ∧ dt.year ≤ 262143 ∧ 1 ≤ dt.month ∧
      dt.month ≤ 12 ∧ 1 ≤ dt.day ∧ dt.day ≤ daysInMonth dt.year dt.month := by
    simpa [Date.valid, dateValidB] using h
  have hday : dt.day < 100 := by
    have := daysInMonth_le dt.year dt.month
    omega
  rw [parseDate, formatDate, parseYear_format]
  simp only [Option.some_bind]
  rw [expectDash, if_pos rfl]
  simp only [Option.some_bind]
  rw [parseField2_format (by omega) _ (dash_not_dig)]
  simp only [Option.some_bind]
  rw [expectDash, if_pos rfl]
  simp only [Option.some_bind]
  have hnil : padZero 2 (natToChars dt.day) =
      padZero 2 (natToChars dt.day) ++ ([] : List Char) := by simp
  rw [hnil, parseField2_format hday [] (by rintro c ⟨⟩)]
  simp only [Option.some_bind, if_pos rfl]
  exact mkDate_valid h

theorem dateOfText_formatDate {dt : Date} (h : dt.valid = true) :
    dateOfText (formatDate dt) = dt := by
  rw [dateOfText, parseDate_formatDate h]
  rfl

theorem dateMax_valid : Date.valid dateMax = true := by decide

/-! ### Lemmas: small list facts -/

theorem head?_append_of_ne_nil {l : List Char} (r : List Char) (h : l ≠ []) :
    (l ++ r).head? = l.head? := by
  match l with
  | [] => exact absurd rfl h
  | c :: cs => rfl

theorem length_dropWhile_le (p : Char → Bool) (l : List Char) :
    (l.dropWhile p).length ≤ l.length := by
  induction l with
  | nil => simp
  | cons c cs ih =>
    rw [List.dropWhile_cons]
    split_ifs with hc
    · simp only [List.length_cons]
      omega
    · simp

theorem mapPair_eraseIdx (f : Task → List Char × Date) :
    ∀ (l : List Task) (i : Nat), (l.eraseIdx i).map f = (l.map f).eraseIdx i := by
  intro l
  induction l with
  | nil => intro i; rfl
  | cons t ts ih =>
    intro i
    match i with
    | 0 => rfl
    | i + 1 => simp [List.eraseIdx_cons_succ, ih i]

theorem mapPair_insertIdx (f : Task → List Char × Date) :
    ∀ (i : Nat) (l : List Task) (a : Task),
      (l.insertIdx i a).map f = (l.map f).insertIdx i (f a) := by
  intro i
  induction i with
  | zero => intro l a; rfl
  | succ i ih =>
    intro l a
    match l with
    | [] => rfl
    | t :: ts => simp [List.insertIdx_succ_cons, ih ts a]

/-! ### Lemmas: order maintenance -/

theorem updateOrderFrom_length (k : Nat) (ts : List Task) :
    (updateOrderFrom k ts).length = ts.length := by
  induction ts generalizing k with
  | nil => rfl
  | cons t ts ih => simp [updateOrderFrom, ih]

theorem updateOrderFrom_get (ts : List Task) : ∀ (k i : Nat)
    (h : i < (updateOrderFrom k ts).length),
    ((updateOrderFrom k ts).get ⟨i, h⟩).order = k + i := by
  induction ts with
  | nil => intro k i h; simp [updateOrderFrom] at h
  | cons t ts ih =>
    intro k i h
    match i with
    | 0 => rfl
    | i + 1 =>
      have hh : i < (updateOrderFrom (k + 1) ts).length := by
        simpa [updateOrderFrom] using h
      have := ih (k + 1) i hh
      simp only [updateOrderFrom, List.get_cons_succ] at *
      omega

theorem orderInv_update_order (ts : List Task) : orderInv (update_order ts) := by
  intro i h
  unfold update_order at h ⊢
  have := updateOrderFrom_get ts 1 i h
  omega

theorem updateOrderFrom_map_pair (f : Task → List Char × Date)
    (hf : ∀ t k, f { t with order := k } = f t) :
    ∀ (k : Nat) (ts : List Task), (updateOrderFrom k ts).map f = ts.map f := by
  intro k ts
  induction ts generalizing k with
  | nil => rfl
  | cons t ts ih => simp [updateOrderFrom, ih, hf]

theorem orderInv_nil : orderInv [] := by
  intro i h
  simp at h

theorem orderInv_add {ts : List Task} (h : orderInv ts) (name : List Char)
    (due : Date) : orderInv (add ts name due) := by
  intro i hi
  unfold add at hi ⊢
  have hlen : i < ts.length + 1 := by simpa using hi
  rw [List.get_eq_getElem]
  rcases Nat.lt_or_ge i ts.length with hlt | hge
  · rw [List.getElem_append_left hlt]
    have := h i hlt
    rw [List.get_eq_getElem] at this
    exact this
  · have hieq : i = ts.length := by omega
    subst hieq
    rw [List.getElem_append_right (Nat.le_refl _)]
    simp

/-! ### Lemmas: structure of load -/

theorem orderInv_iff (ts : List Task) : orderInv ts ↔
    ∀ (i : Nat) (t : Task), ts[i]? = some t → t.order = i + 1 := by
  constructor
  · intro h i t hit
    have hlen : i < ts.length := by
      by_contra hc
      rw [List.getElem?_eq_none (by omega)] at hit
      cases hit
    rw [List.getElem?_eq_getElem hlen] at hit
    have hgi := h i hlen
    rw [List.get_eq_getElem] at hgi
    rw [← Option.some.inj hit]
    exact hgi
  · intro h i hlen
    apply h i
    rw [List.getElem?_eq_getElem hlen, List.get_eq_getElem]

theorem loadLoop_order (lines : List (List Char)) : ∀ (k i : Nat) (t : Task),
    (loadLoop k lines)[i]? = some t → t.order = k + i := by
  induction lines with
  | nil => intro k i t hit; simp [loadLoop] at hit
  | cons line rest ih =>
    intro k i t hit
    by_cases hb : trim line = []
    · have heq : loadLoop k (line :: rest) = loadLoop k rest := by
        simp [loadLoop, hb]
      rw [heq] at hit
      exact ih k i t hit
    · have heq : loadLoop k (line :: rest) =
          ⟨(splitDateName (trim line)).2,
            dateOfText (splitDateName (trim line)).1, k⟩ ::
            loadLoop (k + 1) rest := by
        simp [loadLoop, hb]
      rw [heq] at hit
      match i with
      | 0 =>
        rw [List.getElem?_cons_zero] at hit
        rw [← Option.some.inj hit]
        rfl
      | i + 1 =>
        rw [List.getElem?_cons_succ] at hit
        have := ih (k + 1) i t hit
        omega

theorem orderInv_load (content : List Char) : orderInv (load content) := by
  rw [orderInv_iff]
  intro i t hit
  unfold load at hit
  have := loadLoop_order (rustLines content) 1 i t hit
  omega

theorem loadLoop_pairs (lines : List (List Char)) : ∀ (k : Nat),
    (loadLoop k lines).map (fun t => (t.name, t.due_date)) =
      ((lines.map trim).filter (fun l => !l.isEmpty)).map
        (fun l => ((splitDateName l).2, dateOfText (splitDateName l).1)) := by
  induction lines with
  | nil => intro k; rfl
  | cons line rest ih =>
    intro k
    by_cases hb : trim line = []
    · have heq : loadLoop k (line :: rest) = loadLoop k rest := by
        simp [loadLoop, hb]
      have hemp : (!(trim line).isEmpty) = false := by
        rw [hb]; rfl
      rw [heq, List.map_cons, List.filter_cons, hemp]
      simp only [Bool.false_eq_true, if_false]
      exact ih k
    · have heq : loadLoop k (line :: rest) =
          ⟨(splitDateName (trim line)).2,
            dateOfText (splitDateName (trim line)).1, k⟩ ::
            loadLoop (k + 1) rest := by
        simp [loadLoop, hb]
      have hemp : (!(trim line).isEmpty) = true := by
        have h2 : (trim line).isEmpty = false := by
          cases hh : (trim line).isEmpty with
          | false => rfl
          | true => exact absurd (List.isEmpty_iff.mp hh) hb
        rw [h2]
        rfl
      rw [heq, List.map_cons, List.map_cons, List.filter_cons, hemp]
      simp only [if_true, List.map_cons]
      rw [ih (k + 1)]

/-! ### Lemmas: the save round trip -/

theorem newline_not_mem_saveLine {t : Task} (h : '\n' ∉ t.name) :
    '\n' ∉ saveLine t := by
  intro hm
  unfold saveLine at hm
  rcases List.mem_append.mp hm with hm | hm
  · exact (formatDate_char_facts hm).1 rfl
  · rcases List.mem_cons.mp hm with hc | hm
    · exact absurd hc (by decide)
    · exact h hm

theorem cr_not_mem_saveLine {t : Task} (h : '\r' ∉ t.name) :
    '\r' ∉ saveLine t := by
  intro hm
  unfold saveLine at hm
  rcases List.mem_append.mp hm with hm | hm
  · exact (formatDate_char_facts hm).2.1 rfl
  · rcases List.mem_cons.mp hm with hc | hm
    · exact absurd hc (by decide)
    · exact h hm

theorem saveLine_ne_nil (t : Task) : saveLine t ≠ [] := by
  unfold saveLine
  simp

theorem splitNewline_saveContent (ts : List Task)
    (h : ∀ t ∈ ts, '\n' ∉ t.name) :
    splitNewline (saveContent ts) = ts.map saveLine ++ [[]] := by
  induction ts with
  | nil => rfl
  | cons t rest ih =>
    have hline : '\n' ∉ saveLine t :=
      newline_not_mem_saveLine (h t (List.mem_cons_self t rest))
    show splitNewline (saveLine t ++ '\n' :: saveContent rest) = _
    rw [splitNewline_append _ hline,
      ih (fun x hx => h x (List.mem_cons_of_mem t hx))]
    rfl

theorem trimRight_last_not_ws {l : List Char} (h : trimRight l = l) :
    ∀ c, l.getLast? = some c → rustWS c = false := by
  intro c hc
  by_contra hws
  rw [Bool.not_eq_false] at hws
  match hrev : l.reverse with
  | [] =>
    rw [← List.head?_reverse l, hrev] at hc
    cases hc
  | d :: rest =>
    have hdc : d = c := by
      rw [← List.head?_reverse l, hrev] at hc
      exact Option.some.inj hc
    subst hdc
    have hlen1 : (trimRight l).length ≤ rest.length := by
      unfold trimRight
      rw [hrev, List.dropWhile_cons, hws]
      simp only [if_true, List.length_reverse]
      exact length_dropWhile_le _ _
    have hlen2 : l.length = rest.length + 1 := by
      rw [← List.length_reverse l, hrev]
      rfl
    rw [h] at hlen1
    omega

theorem trim_saveLine {t : Task} (hname : trimRight t.name = t.name) :
    trim (saveLine t) = saveLine t := by
  apply trim_eq_self
  · intro c hc
    unfold saveLine at hc
    rw [head?_append_of_ne_nil _ (formatDate_ne_nil t.due_date)] at hc
    have hmem : c ∈ formatDate t.due_date := by
      match hfd : formatDate t.due_date with
      | [] => exact absurd hfd (formatDate_ne_nil _)
      | d :: ds =>
        rw [hfd, List.head?_cons] at hc
        rw [← Option.some.inj hc]
        exact List.mem_cons_self d ds
    exact (formatDate_char_facts hmem).2.2.2
  · intro c hc
    unfold saveLine at hc
    rw [List.getLast?_append_of_ne_nil _ (by simp)] at hc
    by_cases hn : t.name = []
    · rw [hn] at hc
      have hcc : c = ',' := by
        simpa using hc.symm
      subst hcc
      decide
    · rw [show (',' :: t.name) = [','] ++ t.name from rfl,
        List.getLast?_append_of_ne_nil _ hn] at hc
      exact trimRight_last_not_ws hname c hc

theorem splitDateName_saveLine (t : Task) :
    splitDateName (saveLine t) = (formatDate t.due_date, t.name) :=
  splitDateName_append t.name (comma_not_mem_formatDate t.due_date)

theorem rustLines_saveContent (ts : List Task)
    (hn : ∀ t ∈ ts, '\n' ∉ t.name) (hr : ∀ t ∈ ts, '\r' ∉ t.name) :
    rustLines (saveContent ts) = ts.map saveLine := by
  unfold rustLines
  rw [splitNewline_saveContent ts hn, List.getLast?_concat, if_pos rfl,
    List.dropLast_concat]
  induction ts with
  | nil => rfl
  | cons t rest ih =>
    rw [List.map_cons, List.map_cons,
      stripCR_eq_self (cr_not_mem_saveLine (hr t (List.mem_cons_self t rest)))]
    congr 1
    exact ih (fun x hx => hn x (List.mem_cons_of_mem t hx))
      (fun x hx => hr x (List.mem_cons_of_mem t hx))

theorem loadLoop_saveLines (ts : List Task) : ∀ (k : Nat),
    (∀ t ∈ ts, trimRight t.name = t.name) →
    (∀ t ∈ ts, Date.valid t.due_date = true) →
    (loadLoop k (ts.map saveLine)).map (fun t => (t.name, t.due_date)) =
      ts.map (fun t => (t.name, t.due_date)) := by
  induction ts with
  | nil => intro k _ _; rfl
  | cons t rest ih =>
    intro k hname hval
    have htr : trim (saveLine t) = saveLine t :=
      trim_saveLine (hname t (List.mem_cons_self t rest))
    have hne : ¬(trim (saveLine t) = []) := by
      rw [htr]
      exact saveLine_ne_nil t
    have heq : loadLoop k (saveLine t :: rest.map saveLine) =
        ⟨(splitDateName (trim (saveLine t))).2,
          dateOfText (splitDateName (trim (saveLine t))).1, k⟩ ::
          loadLoop (k + 1) (rest.map saveLine) := by
      simp [loadLoop, hne]
    rw [List.map_cons, heq, List.map_cons]
    congr 1
    · rw [htr, splitDateName_saveLine]
      show (t.name, dateOfText (formatDate t.due_date)) = (t.name, t.due_date)
      rw [dateOfText_formatDate (hval t (List.mem_cons_self t rest))]
    · exact ih (k + 1) (fun x hx => hname x (List.mem_cons_of_mem t hx))
        (fun x hx => hval x (List.mem_cons_of_mem t hx))

theorem load_saveContent (ts : List Task)
    (h : ∀ t ∈ ts, Date.valid t.due_date = true ∧ '\n' ∉ t.name ∧
      '\r' ∉ t.name ∧ trimRight t.name = t.name) :
    (load (saveContent ts)).map (fun t => (t.name, t.due_date)) =
      ts.map (fun t => (t.name, t.due_date)) := by
  unfold load
  rw [rustLines_saveContent ts (fun t ht => (h t ht).2.1)
    (fun t ht => (h t ht).2.2.1)]
  exact loadLoop_saveLines ts 1 (fun t ht => (h t ht).2.2.2)
    (fun t ht => (h t ht).1)

/-! ### Lemmas: the task ordering -/

/-- Lexicographic reading of the derived strict date order. -/
def dateLtKey (a b : Date) : Prop :=
  a.year < b.year ∨ (a.year = b.year ∧ (a.month < b.month ∨
    (a.month = b.month ∧ a.day < b.day)))

/-- Lexicographic reading of the Task sort relation: due date ascending,
order ascending among equal due dates. -/
def taskLeKey (a b : Task) : Prop :=
  dateLtKey a.due_date b.due_date ∨
    (a.due_date = b.due_date ∧ a.order ≤ b.order)

theorem date_eq_iff {a b : Date} :
    a = b ↔ a.year = b.year ∧ a.month = b.month ∧ a.day = b.day := by
  constructor
  · rintro rfl
    exact ⟨rfl, rfl, rfl⟩
  · rintro ⟨h1, h2, h3⟩
    cases a
    cases b
    simp_all

theorem taskRel_iff {a b : Task} : taskRel a b ↔ taskLeKey a b := by
  unfold taskRel taskCmp dateCmp cmpInt cmpNat taskLeKey dateLtKey
  split_ifs <;> simp [Ordering.then, date_eq_iff] <;> omega

theorem taskCmp_eq_iff {a b : Task} :
    taskCmp a b = .eq ↔ (a.due_date = b.due_date ∧ a.order = b.order) := by
  unfold taskCmp dateCmp cmpInt cmpNat
  split_ifs <;> simp [Ordering.then, date_eq_iff] <;> omega

theorem dateLe_iff {a b : Date} :
    dateLe a b = true ↔ (dateLtKey a b ∨ a = b) := by
  unfold dateLe dateCmp cmpInt cmpNat dateLtKey
  split_ifs <;> simp [Ordering.then, date_eq_iff] <;> omega

theorem dateLt_iff {a b : Date} : dateLt a b = true ↔ dateLtKey a b := by
  unfold dateLt dateCmp cmpInt cmpNat dateLtKey
  split_ifs <;> simp [Ordering.then, date_eq_iff] <;> omega

instance : IsTotal Task taskRel :=
  ⟨fun a b => by
    rw [taskRel_iff, taskRel_iff]
    unfold taskLeKey dateLtKey
    simp only [date_eq_iff]
    omega⟩

instance : IsTrans Task taskRel :=
  ⟨fun a b c => by
    rw [taskRel_iff, taskRel_iff, taskRel_iff]
    unfold taskLeKey dateLtKey
    simp only [date_eq_iff]
    omega⟩

/-! ### Lemmas: sorting and stability -/

theorem orderInv_pairwise {ts : List Task} (h : orderInv ts) :
    List.Pairwise (fun a b => a.order < b.order) ts := by
  rw [List.pairwise_iff_get]
  intro i j hij
  have hi := h i.val i.isLt
  have hj := h j.val j.isLt
  rw [Fin.eta] at hi hj
  omega

theorem pairwise_lt_of_le_of_ne {l : List Task}
    (h1 : List.Pairwise (fun a b => a.order ≤ b.order) l)
    (h2 : List.Pairwise (fun a b => a.order ≠ b.order) l) :
    List.Pairwise (fun a b => a.order < b.order) l :=
  (h1.and h2).imp (fun hab => Nat.lt_of_le_of_ne hab.1 hab.2)

theorem eq_of_perm_of_pairwise_lt : ∀ {l₁ l₂ : List Task}, l₁.Perm l₂ →
    List.Pairwise (fun a b => a.order < b.order) l₁ →
    List.Pairwise (fun a b => a.order < b.order) l₂ → l₁ = l₂ := by
  intro l₁
  induction l₁ with
  | nil =>
    intro l₂ hp _ _
    exact (hp.symm.eq_nil).symm
  | cons a t₁ ih =>
    intro l₂ hp hp1 hp2
    match l₂ with
    | [] => cases hp.eq_nil
    | b :: t₂ =>
      have hab : a = b := by
        by_contra hne
        have ha2 : a ∈ b :: t₂ := hp.mem_iff.mp (List.mem_cons_self a t₁)
        have hb1 : b ∈ a :: t₁ := hp.mem_iff.mpr (List.mem_cons_self b t₂)
        have ha : a ∈ t₂ := by
          rcases List.mem_cons.mp ha2 with h | h
          · exact absurd h hne
          · exact h
        have hb : b ∈ t₁ := by
          rcases List.mem_cons.mp hb1 with h | h
          · exact absurd h.symm hne
          · exact h
        have h1 := (List.pairwise_cons.mp hp1).1 b hb
        have h2 := (List.pairwise_cons.mp hp2).1 a ha
        omega
      subst hab
      rw [ih hp.cons_inv (List.pairwise_cons.mp hp1).2
        (List.pairwise_cons.mp hp2).2]

/-! ### Claim theorems -/

/-- C1, counterexample: save does not write an empty date field for a task
with the sentinel maximum due date; the written line begins with the literal
formatted maximum date, not with a comma. -/
theorem claim1_counterexample :
    (saveLine ⟨strL "x", dateMax, 1⟩).head? = some '+' ∧
    (saveLine ⟨strL "x", dateMax, 1⟩).head? ≠ some ',' ∧
    (splitDateName (saveLine ⟨strL "x", dateMax, 1⟩)).1 = strL "+262143-12-31" ∧
    saveContent [⟨strL "x", dateMax, 1⟩] = strL "+262143-12-31,x\n" := by
  decide

/-- C1, amended: save writes every task, sentinel or not, as the due date
formatted with %Y-%m-%d followed by a comma and the name; for a sentinel
task the date field is the literal formatted maximum date "+262143-12-31",
never an empty field. -/
theorem claim1_save_line_format (t : Task) :
    saveLine t = formatDate t.due_date ++ ',' :: t.name ∧
    splitDateName (saveLine t) = (formatDate t.due_date, t.name) ∧
    (t.due_date = dateMax →
      (splitDateName (saveLine t)).1 = strL "+262143-12-31" ∧
      (splitDateName (saveLine t)).1 ≠ []) := by
  refine ⟨rfl, splitDateName_saveLine t, fun hmax => ?_⟩
  rw [splitDateName_saveLine, hmax]
  constructor
  · show formatDate dateMax = strL "+262143-12-31"
    decide
  · show formatDate dateMax ≠ []
    decide

/-- C1, witness for the amended theorem at a concrete sentinel task. -/
theorem claim1_witness :
    (splitDateName (saveLine ⟨strL "y", dateMax, 5⟩)).1 = strL "+262143-12-31" :=
  ((claim1_save_line_format ⟨strL "y", dateMax, 5⟩).2.2 rfl).1

/-- C2, counterexample: a sentinel task round-trips with a non-empty date
field holding the literal maximum date, which load parses right back to the
sentinel (so it comes back as a parsed literal max-date, contrary to the
claim), and a task whose name contains a newline does not round-trip to the
same (name, due date) sequence at all. -/
theorem claim2_counterexample :
    ((splitDateName (trim (saveLine ⟨strL "x", dateMax, 1⟩))).1 ≠ [] ∧
      (splitDateName (trim (saveLine ⟨strL "x", dateMax, 1⟩))).1 =
        strL "+262143-12-31" ∧
      parseDate (strL "+262143-12-31") = some dateMax) ∧
    (load (saveContent [⟨strL "a\nb", ⟨2024, 1, 1⟩, 1⟩])).map
        (fun t => (t.name, t.due_date)) ≠
      [(strL "a\nb", (⟨2024, 1, 1⟩ : Date))] := by
  decide

/-- C2, amended: for a task list whose due dates are values a NaiveDate can
hold and whose names contain no line break or carriage return and carry no
trailing whitespace, save followed by load reproduces the same sequence of
(name, due date) pairs; a sentinel task comes back with the sentinel, but
via the saved literal maximum-date field, not an empty date field. -/
theorem claim2_roundtrip (ts : List Task)
    (h : ∀ t ∈ ts, Date.valid t.due_date = true ∧ '\n' ∉ t.name ∧
      '\r' ∉ t.name ∧ trimRight t.name = t.name) :
    (load (saveContent ts)).map (fun t => (t.name, t.due_date)) =
      ts.map (fun t => (t.name, t.due_date)) ∧
    (∀ t ∈ ts, t.due_date = dateMax →
      (splitDateName (saveLine t)).1 = strL "+262143-12-31") := by
  refine ⟨load_saveContent ts h, fun t _ hmax => ?_⟩
  rw [splitDateName_saveLine, hmax]
  show formatDate dateMax = strL "+262143-12-31"
  decide

/-- C2, witness: the round trip at a concrete two-task list with one dated
and one sentinel task. -/
theorem claim2_witness :
    (load (saveContent [⟨strL "Buy milk", ⟨2024, 1, 1⟩, 1⟩,
        ⟨strL "x", dateMax, 2⟩])).map (fun t => (t.name, t.due_date)) =
      [(strL "Buy milk", ⟨2024, 1, 1⟩), (strL "x", dateMax)] := by
  have h := claim2_roundtrip
    [⟨strL "Buy milk", ⟨2024, 1, 1⟩, 1⟩, ⟨strL "x", dateMax, 2⟩] (by decide)
  rw [h.1]
  rfl

/-- C3: print_tasks highlights a task as overdue exactly when its due date
is at or before the current local date; since any actual current date is
strictly before the sentinel maximum date, this holds exactly when the due
date is not the sentinel and is at or before today, and a task with no due
date (the sentinel) is never overdue. -/
theorem claim3_overdue_iff (t : Task) (today : Date)
    (h : dateLt today dateMax = true) :
    isOverdue t today = true ↔
      (t.due_date ≠ dateMax ∧ dateLe t.due_date today = true) := by
  unfold isOverdue
  constructor
  · intro hle
    refine ⟨?_, hle⟩
    intro hmax
    rw [hmax, dateLe_iff] at hle
    rw [dateLt_iff] at h
    rw [date_eq_iff] at hle
    unfold dateLtKey at hle h
    simp [dateMax] at hle h
    omega
  · exact fun hx => hx.2

/-- C3, witness at a dated task, an undated task and a concrete today. -/
theorem claim3_witness :
    (isOverdue ⟨strL "a", ⟨2024, 1, 1⟩, 1⟩ ⟨2026, 10, 12⟩ = true ↔
      ((⟨2024, 1, 1⟩ : Date) ≠ dateMax ∧
        dateLe ⟨2024, 1, 1⟩ ⟨2026, 10, 12⟩ = true)) ∧
    (isOverdue ⟨strL "b", dateMax, 2⟩ ⟨2026, 10, 12⟩ = true ↔
      (dateMax ≠ dateMax ∧ dateLe dateMax ⟨2026, 10, 12⟩ = true)) :=
  ⟨claim3_overdue_iff ⟨strL "a", ⟨2024, 1, 1⟩, 1⟩ ⟨2026, 10, 12⟩ (by decide),
    claim3_overdue_iff ⟨strL "b", dateMax, 2⟩ ⟨2026, 10, 12⟩ (by decide)⟩

/-- C9: load maps each trimmed non-blank line to a task whose name and due
date come from splitting the line at its first comma (the whole line being
the name and the date text empty when there is no comma, empty or invalid
date text becoming the sentinel), assigns order as 1-based position among
the non-blank lines, and yields an empty list for a missing or empty file. -/
theorem claim9_load_spec (content line dtext : List Char) :
    ((load content).map (fun t => (t.name, t.due_date)) =
      (((rustLines content).map trim).filter (fun l => !l.isEmpty)).map
        (fun l => ((splitDateName l).2, dateOfText (splitDateName l).1))) ∧
    orderInv (load content) ∧
    loadFile none = [] ∧
    load [] = [] ∧
    (',' ∉ line → splitDateName line = ([], line)) ∧
    dateOfText [] = dateMax ∧
    (parseDate dtext = none → dateOfText dtext = dateMax) := by
  refine ⟨?_, orderInv_load content, rfl, rfl,
    fun hc => splitDateName_of_no_comma hc, rfl, fun hp => ?_⟩
  · unfold load
    exact loadLoop_pairs (rustLines content) 1
  · unfold dateOfText
    rw [hp]
    rfl

/-- C9, witness: the load characterisation applied at a concrete file
content, a comma-free line, and an unparseable date text. -/
theorem claim9_witness :
    splitDateName (strL "Write report") = ([], strL "Write report") ∧
    dateOfText (strL "garbage") = dateMax :=
  ⟨(claim9_load_spec (strL "2024-01-01,Buy milk\n,Write report")
      (strL "Write report") (strL "garbage")).2.2.2.2.1 (by decide),
    (claim9_load_spec (strL "2024-01-01,Buy milk\n,Write report")
      (strL "Write report") (strL "garbage")).2.2.2.2.2.2 (by decide)⟩

/-- C10: equality and ordering of tasks ignore the name: tasks agreeing on
due date and order are equal under the PartialEq model and compare as equal
under the Ord model, whatever their names. -/
theorem claim10_eq_ignores_name (a b : Task)
    (h1 : a.due_date = b.due_date) (h2 : a.order = b.order) :
    taskEqB a b = true ∧ taskCmp a b = Ordering.eq := by
  constructor
  · unfold taskEqB
    simp [h1, h2]
  · rw [taskCmp_eq_iff]
    exact ⟨h1, h2⟩

/-- C4: the order invariant (order fields exactly 1..N by position) is
established by load and preserved by every public mutation: add keeps it
while growing the list by one, an in-bounds remove returns a renumbered
list one shorter, an in-bounds reorder returns a renumbered list of the
same length, and N additions to the empty list give length N with order
values exactly 1..N. -/
theorem claim4_order_invariant :
    (∀ (ts : List Task) (name : List Char) (due : Date), orderInv ts →
      orderInv (add ts name due) ∧ (add ts name due).length = ts.length + 1) ∧
    (∀ (ts : List Task) (i : Nat), i < ts.length →
      ∃ res, removeTask ts i = .ok res ∧ orderInv res ∧
        res.length = ts.length - 1) ∧
    (∀ (ts : List Task) (i j : Nat) (hi : i < ts.length), j < ts.length →
      ∃ res, reorderTask ts i j = .ok res ∧ orderInv res ∧
        res.length = ts.length) ∧
    (∀ content : List Char, orderInv (load content)) ∧
    (∀ ops : List (List Char × Date),
      (addAll ops).length = ops.length ∧ orderInv (addAll ops)) := by
  refine ⟨fun ts name due h => ⟨orderInv_add h name due, by simp [add]⟩,
    ?_, ?_, orderInv_load, ?_⟩
  · intro ts i hi
    refine ⟨update_order (ts.eraseIdx i), ?_, orderInv_update_order _, ?_⟩
    · unfold removeTask
      rw [if_neg (by omega)]
    · unfold update_order
      rw [updateOrderFrom_length, List.length_eraseIdx]
      simp [hi]
  · intro ts i j hi hj
    refine ⟨update_order ((ts.eraseIdx i).insertIdx j (ts.get ⟨i, hi⟩)), ?_,
      orderInv_update_order _, ?_⟩
    · unfold reorderTask
      rw [dif_pos ⟨hi, hj⟩]
    · unfold update_order
      have h2 : j ≤ (ts.eraseIdx i).length := by
        rw [List.length_eraseIdx, if_pos hi]
        omega
      rw [updateOrderFrom_length, List.length_insertIdx _ _ h2,
        List.length_eraseIdx, if_pos hi]
      omega
  · intro ops
    have main : ∀ (ops : List (List Char × Date)) (l : List Task), orderInv l →
        (ops.foldl (fun acc p => add acc p.1 p.2) l).length =
          l.length + ops.length ∧
        orderInv (ops.foldl (fun acc p => add acc p.1 p.2) l) := by
      intro ops
      induction ops with
      | nil => intro l h; exact ⟨by simp, h⟩
      | cons p rest ih =>
        intro l h
        have hstep := ih (add l p.1 p.2) (orderInv_add h p.1 p.2)
        refine ⟨?_, ?_⟩
        · rw [List.foldl_cons, hstep.1]
          simp [add]
          omega
        · rw [List.foldl_cons]
          exact hstep.2
    have hm := main ops [] orderInv_nil
    unfold addAll
    refine ⟨?_, hm.2⟩
    rw [hm.1]
    simp

/-- C4, witness: the invariant parts applied at concrete lists. -/
theorem claim4_witness :
    orderInv (add [] (strL "a") dateMax) ∧
    (addAll [(strL "a", dateMax), (strL "b", ⟨2024, 1, 1⟩)]).length = 2 :=
  ⟨(claim4_order_invariant.1 [] (strL "a") dateMax orderInv_nil).1,
    (claim4_order_invariant.2.2.2.2
      [(strL "a", dateMax), (strL "b", ⟨2024, 1, 1⟩)]).1⟩

/-- C5: reorder with in-bounds indices succeeds and acts on the task
sequence as remove-then-insert, the target index read against the shortened
list, with the order fields recomputed afterwards; on the concrete list
[A, B, C] moving index 0 to index 2 yields [B, C, A], which is not the
result of a swap. -/
theorem claim5_reorder_semantics :
    (∀ (ts : List Task) (i j : Nat) (hi : i < ts.length), j < ts.length →
      ∃ res, reorderTask ts i j = .ok res ∧
        res.map (fun t => (t.name, t.due_date)) =
          ((ts.map (fun t => (t.name, t.due_date))).eraseIdx i).insertIdx j
            ((ts.map (fun t => (t.name, t.due_date))).get
              ⟨i, by simpa using hi⟩) ∧
        orderInv res) ∧
    (∃ res, reorderTask
        [⟨strL "A", dateMax, 1⟩, ⟨strL "B", dateMax, 2⟩, ⟨strL "C", dateMax, 3⟩]
        0 2 = .ok res ∧
      res.map Task.name = [strL "B", strL "C", strL "A"] ∧
      res.map Task.name ≠ [strL "C", strL "B", strL "A"]) := by
  constructor
  · intro ts i j hi hj
    refine ⟨update_order ((ts.eraseIdx i).insertIdx j (ts.get ⟨i, hi⟩)), ?_,
      ?_, orderInv_update_order _⟩
    · unfold reorderTask
      rw [dif_pos ⟨hi, hj⟩]
    · unfold update_order
      rw [updateOrderFrom_map_pair (fun t => (t.name, t.due_date))
        (fun t k => rfl)]
      rw [mapPair_insertIdx, mapPair_eraseIdx]
      congr 1
      rw [List.get_eq_getElem, List.get_eq_getElem, List.getElem_map]
  · refine ⟨_, rfl, by decide, by decide⟩

/-- C5, witness: the general remove-then-insert characterisation applied at
the concrete list [A, B, C] with source 0 and target 2. -/
theorem claim5_witness :
    ∃ res, reorderTask
        [⟨strL "A", dateMax, 1⟩, ⟨strL "B", dateMax, 2⟩, ⟨strL "C", dateMax, 3⟩]
        0 2 = .ok res ∧
      res.map (fun t => (t.name, t.due_date)) =
        (([⟨strL "A", dateMax, 1⟩, ⟨strL "B", dateMax, 2⟩,
            ⟨strL "C", dateMax, 3⟩].map
              (fun t : Task => (t.name, t.due_date))).eraseIdx 0).insertIdx 2
          (([⟨strL "A", dateMax, 1⟩, ⟨strL "B", dateMax, 2⟩,
            ⟨strL "C", dateMax, 3⟩].map
              (fun t : Task => (t.name, t.due_date))).get ⟨0, by decide⟩) ∧
      orderInv res :=
  claim5_reorder_semantics.1
    [⟨strL "A", dateMax, 1⟩, ⟨strL "B", dateMax, 2⟩, ⟨strL "C", dateMax, 3⟩]
    0 2 (by decide) (by decide)

/-- C6, counterexample: remove at position 0 on a two-task list is rejected
with the message "Error position cannot be < 1", which does not identify
the valid 1-based range (it never mentions the upper endpoint 2). -/
theorem claim6_counterexample :
    parse_remove [strL "0"] [⟨strL "A", dateMax, 1⟩, ⟨strL "B", dateMax, 2⟩] =
      .error (strL "Error position cannot be < 1") ∧
    ¬ specIdentifiesRange
      ([⟨strL "A", dateMax, 1⟩, ⟨strL "B", dateMax, 2⟩] : List Task).length
      (strL "Error position cannot be < 1") := by
  constructor
  · decide
  · unfold specIdentifiesRange
    decide

/-- C6, amended: remove or move with an external 1-based position equal to
0 or greater than the length is rejected as a reported user error (a
process exit, never a panic) and the process exits before the save point,
so the stored list is unchanged; the error for a too-large position
identifies the valid 1-based range, while position 0 is rejected earlier
with a message naming only the lower bound. -/
theorem claim6_out_of_range :
    (∀ (ts : List Task) (p : List Char) (n : Nat), parseUsize p = some n →
      (n = 0 ∨ n > ts.length) →
      ∃ msg, parse_remove [p] ts = .error msg ∧
        (n = 0 → msg = strL "Error position cannot be < 1") ∧
        (1 ≤ n → msg = removeRangeMsg ts.length)) ∧
    (∀ (a0 content p : List Char) (n : Nat), parseUsize p = some n →
      (n = 0 ∨ n > (load content).length) →
      parse_command [a0, strL "remove", p] content = ⟨true, none⟩) ∧
    (∀ (ts : List Task) (p q : List Char) (n m : Nat), parseUsize p = some n →
      parseUsize q = some m →
      (n = 0 ∨ m = 0 ∨ n > ts.length ∨ m > ts.length) →
      ∃ msg, parse_move [p, q] ts = .error msg ∧
        ((n = 0 ∨ m = 0) → msg = strL "Error positions cannot be < 1") ∧
        (1 ≤ n → 1 ≤ m → msg = reorderRangeMsg ts.length)) ∧
    (∀ (a0 content p q : List Char) (n m : Nat), parseUsize p = some n →
      parseUsize q = some m →
      (n = 0 ∨ m = 0 ∨ n > (load content).length ∨
        m > (load content).length) →
      parse_command [a0, strL "move", p, q] content = ⟨true, none⟩) := by
  have hrem : ∀ (ts : List Task) (p : List Char) (n : Nat),
      parseUsize p = some n → (n = 0 ∨ n > ts.length) →
      ∃ msg, parse_remove [p] ts = .error msg ∧
        (n = 0 → msg = strL "Error position cannot be < 1") ∧
        (1 ≤ n → msg = removeRangeMsg ts.length) := by
    intro ts p n hp hrange
    have heq : parse_remove [p] ts =
        (if n < 1 then .error (strL "Error position cannot be < 1")
         else removeTask ts (n - 1)) := by
      simp [parse_remove, hp]
    rcases hrange with rfl | hgt
    · refine ⟨strL "Error position cannot be < 1", ?_, fun _ => rfl,
        fun h1 => absurd h1 (by omega)⟩
      rw [heq, if_pos (by omega)]
    · refine ⟨removeRangeMsg ts.length, ?_, fun h0 => by omega, fun _ => rfl⟩
      rw [heq, if_neg (by omega)]
      unfold removeTask
      rw [if_pos (by omega)]
  have hmov : ∀ (ts : List Task) (p q : List Char) (n m : Nat),
      parseUsize p = some n → parseUsize q = some m →
      (n = 0 ∨ m = 0 ∨ n > ts.length ∨ m > ts.length) →
      ∃ msg, parse_move [p, q] ts = .error msg ∧
        ((n = 0 ∨ m = 0) → msg = strL "Error positions cannot be < 1") ∧
        (1 ≤ n → 1 ≤ m → msg = reorderRangeMsg ts.length) := by
    intro ts p q n m hp hq hrange
    have heq : parse_move [p, q] ts =
        (if n < 1 ∨ m < 1 then .error (strL "Error positions cannot be < 1")
         else reorderTask ts (n - 1) (m - 1)) := by
      simp [parse_move, hp, hq]
    by_cases hz : n = 0 ∨ m = 0
    · refine ⟨strL "Error positions cannot be < 1", ?_, fun _ => rfl,
        fun h1 h2 => by omega⟩
      rw [heq, if_pos (by omega)]
    · push_neg at hz
      refine ⟨reorderRangeMsg ts.length, ?_, fun h0 => absurd h0 (by omega),
        fun _ _ => rfl⟩
      rw [heq, if_neg (by omega)]
      unfold reorderTask
      rw [dif_neg (by omega)]
  refine ⟨hrem, ?_, hmov, ?_⟩
  · intro a0 content p n hp hrange
    have hred : parse_command [a0, strL "remove", p] content =
        mutate (parse_remove [p] (load content)) := rfl
    obtain ⟨msg, hmsg, _, _⟩ := hrem (load content) p n hp hrange
    rw [hred, hmsg]
    rfl
  · intro a0 content p q n m hp hq hrange
    have hred : parse_command [a0, strL "move", p, q] content =
        mutate (parse_move [p, q] (load content)) := rfl
    obtain ⟨msg, hmsg, _, _⟩ := hmov (load content) p q n m hp hq hrange
    rw [hred, hmsg]
    rfl

/-- C6, witness: remove at position 3 on a one-task list errors with the
message identifying the valid range. -/
theorem claim6_witness :
    ∃ msg, parse_remove [strL "3"] [⟨strL "A", dateMax, 1⟩] = .error msg ∧
      ((3 : Nat) = 0 → msg = strL "Error position cannot be < 1") ∧
      ((1 : Nat) ≤ 3 →
        msg = removeRangeMsg ([⟨strL "A", dateMax, 1⟩] : List Task).length) :=
  claim6_out_of_range.1 [⟨strL "A", dateMax, 1⟩] (strL "3") 3 (by decide)
    (by decide)

/-- C7: displaying by date presents a permutation of the tasks sorted by
(due date ascending, order ascending); under the order invariant, tasks
with equal due dates keep their original relative order (the filter at any
fixed due date is unchanged), and tasks with the sentinel maximum due date
come after every dated task. -/
theorem claim7_sort_by_date (ts : List Task) (hinv : orderInv ts)
    (hmax : ∀ t ∈ ts, dateLe t.due_date dateMax = true) :
    (sortTasks ts).Perm ts ∧
    List.Pairwise taskLeKey (sortTasks ts) ∧
    (∀ dt : Date, (sortTasks ts).filter (fun t => t.due_date == dt) =
      ts.filter (fun t => t.due_date == dt)) ∧
    (∀ (i j : Nat) (hi : i < (sortTasks ts).length)
        (hj : j < (sortTasks ts).length),
      ((sortTasks ts).get ⟨i, hi⟩).due_date = dateMax →
      ((sortTasks ts).get ⟨j, hj⟩).due_date ≠ dateMax → j < i) := by
  have hperm : (sortTasks ts).Perm ts := List.perm_insertionSort taskRel ts
  have hsorted : List.Pairwise taskRel (sortTasks ts) :=
    List.sorted_insertionSort taskRel ts
  refine ⟨hperm, hsorted.imp (fun h => taskRel_iff.mp h), ?_, ?_⟩
  · intro dt
    have hsf : List.Pairwise taskRel
        ((sortTasks ts).filter (fun t => t.due_date == dt)) :=
      List.Pairwise.sublist (List.filter_sublist _) hsorted
    have hle : List.Pairwise (fun a b => a.order ≤ b.order)
        ((sortTasks ts).filter (fun t => t.due_date == dt)) := by
      refine List.Pairwise.imp_of_mem ?_ hsf
      intro a b ha hb hrel
      have hda : a.due_date = dt := by
        have := (List.mem_filter.mp ha).2
        simpa using this
      have hdb : b.due_date = dt := by
        have := (List.mem_filter.mp hb).2
        simpa using this
      rw [taskRel_iff] at hrel
      rcases hrel with hk | hk
      · unfold dateLtKey at hk
        rw [hda, hdb] at hk
        omega
      · exact hk.2
    have hpermf := hperm.filter (fun t => t.due_date == dt)
    have htsf : List.Pairwise (fun a b => a.order < b.order)
        (ts.filter (fun t => t.due_date == dt)) :=
      List.Pairwise.sublist (List.filter_sublist _) (orderInv_pairwise hinv)
    have hnets : List.Pairwise (fun a b => a.order ≠ b.order)
        (ts.filter (fun t => t.due_date == dt)) :=
      htsf.imp (fun h => by omega)
    have hnes : List.Pairwise (fun a b => a.order ≠ b.order)
        ((sortTasks ts).filter (fun t => t.due_date == dt)) :=
      (hpermf.pairwise_iff (fun hx => Ne.symm hx)).mpr hnets
    exact eq_of_perm_of_pairwise_lt hpermf
      (pairwise_lt_of_le_of_ne hle hnes) htsf
  · intro i j hi hj hdi hdj
    by_contra hc
    push_neg at hc
    have hij : i ≤ j := by omega
    rcases Nat.eq_or_lt_of_le hij with heq | hlt
    · subst heq
      exact hdj hdi
    · have hrel := (List.pairwise_iff_get.mp hsorted) ⟨i, hi⟩ ⟨j, hj⟩
        (Fin.mk_lt_mk.mpr hlt)
      have hjm := hmax ((sortTasks ts).get ⟨j, hj⟩)
        (hperm.mem_iff.mp (List.get_mem _ _ _))
      rw [taskRel_iff] at hrel
      rw [dateLe_iff] at hjm
      unfold taskLeKey dateLtKey at hrel
      unfold dateLtKey at hjm
      rw [hdi] at hrel
      rw [ne_eq, date_eq_iff] at hdj
      rw [date_eq_iff] at hjm hrel
      simp [dateMax] at hrel hjm hdj
      omega

/-- C7, witness: the sorted-display properties at a concrete list with one
dated and one undated task. -/
theorem claim7_witness :
    (sortTasks [⟨strL "a", dateMax, 1⟩, ⟨strL "b", ⟨2024, 1, 1⟩, 2⟩]).Perm
      [⟨strL "a", dateMax, 1⟩, ⟨strL "b", ⟨2024, 1, 1⟩, 2⟩] ∧
    List.Pairwise taskLeKey
      (sortTasks [⟨strL "a", dateMax, 1⟩, ⟨strL "b", ⟨2024, 1, 1⟩, 2⟩]) :=
  have h := claim7_sort_by_date
    [⟨strL "a", dateMax, 1⟩, ⟨strL "b", ⟨2024, 1, 1⟩, 2⟩]
    (by
      intro i h
      have h2 : i < 2 := by simpa using h
      interval_cases i <;> rfl) (by decide)
  ⟨h.1, h.2.1⟩

/-- C8, counterexample: an invocation of the mutating command remove whose
position is out of range exits without saving, so the list is not saved
even though the executed command is one of add, remove, move. -/
theorem claim8_counterexample :
    commandOf ([strL "todo", strL "remove", strL "1"].drop 1) ∈
      mutatingCommands ∧
    parse_command [strL "todo", strL "remove", strL "1"] [] =
      ⟨true, none⟩ := by
  constructor
  · decide
  · decide

/-- C8, amended: after dispatch, save is invoked exactly when the command
named by the arguments is one of the mutating commands add, remove, move
and its branch completed without an error exit; read-only commands and the
no-argument default (list) never trigger a write. -/
theorem claim8_save_iff :
    (∀ (argv : List (List Char)) (content : List Char),
      (parse_command argv content).saved.isSome = true ↔
        (commandOf (argv.drop 1) ∈ mutatingCommands ∧
          (parse_command argv content).exited = false)) ∧
    commandOf [] = strL "list" := by
  refine ⟨?_, rfl⟩
  intro argv content
  unfold parse_command
  split_ifs with h1 h2 h3 h4 h5 h6
  · constructor
    · intro hx
      exact absurd hx (by decide)
    · rintro ⟨hm, _⟩
      rw [h1] at hm
      exact absurd hm (by decide)
  · constructor
    · intro hx
      exact absurd hx (by decide)
    · rintro ⟨hm, _⟩
      rw [h2] at hm
      exact absurd hm (by decide)
  · rcases hexp : parse_add ((argv.drop 1).drop 1) (load content) with e | l
    · constructor
      · intro hx
        simp [mutate] at hx
      · rintro ⟨_, hex⟩
        simp [mutate] at hex
    · have hm : strL "add" ∈ mutatingCommands := by decide
      rw [h3]
      simp [mutate, hm]
  · rcases hexp : parse_remove ((argv.drop 1).drop 1) (load content) with e | l
    · constructor
      · intro hx
        simp [mutate] at hx
      · rintro ⟨_, hex⟩
        simp [mutate] at hex
    · have hm : strL "remove" ∈ mutatingCommands := by decide
      rw [h4]
      simp [mutate, hm]
  · rcases hexp : parse_move ((argv.drop 1).drop 1) (load content) with e | l
    · constructor
      · intro hx
        simp [mutate] at hx
      · rintro ⟨_, hex⟩
        simp [mutate] at hex
    · have hm : strL "move" ∈ mutatingCommands := by decide
      rw [h5]
      simp [mutate, hm]
  · constructor
    · intro hx
      exact absurd hx (by decide)
    · rintro ⟨hm, _⟩
      rcases h6 with h | h | h <;> rw [h] at hm <;> exact absurd hm (by decide)
  · constructor
    · intro hx
      exact absurd hx (by decide)
    · rintro ⟨_, hex⟩
      exact absurd hex (by decide)

/-- C8, witness: the save-iff equivalence at a concrete add invocation. -/
theorem claim8_witness :
    (parse_command [strL "todo", strL "add", strL "task"] []).saved.isSome =
      true ↔
    (commandOf ([strL "todo", strL "add", strL "task"].drop 1) ∈
        mutatingCommands ∧
      (parse_command [strL "todo", strL "add", strL "task"] []).exited =
        false) :=
  claim8_save_iff.1 [strL "todo", strL "add", strL "task"] []

/-- C10, witness at two tasks with different names. -/
theorem claim10_witness :
    taskEqB ⟨strL "alpha", ⟨2024, 1, 1⟩, 3⟩ ⟨strL "beta", ⟨2024, 1, 1⟩, 3⟩ =
      true ∧
    taskCmp ⟨strL "alpha", ⟨2024, 1, 1⟩, 3⟩ ⟨strL "beta", ⟨2024, 1, 1⟩, 3⟩ =
      Ordering.eq :=
  claim10_eq_ignores_name _ _ rfl rfl

end Todo
